import Mathlib

/-!
# Verification of `pupil_src/shared_modules/file_methods.py`

A shallow embedding of the storage/access layer of the Pupil recording
software: the msgpack-style codec used by `save_object` / `load_object`,
the `Persistent_Dict` session-settings store, the pupil-data record log
reader/writer (`load_pupil_data_file` / `save_pupil_data_file`), and the
lazily-deserializing `Serialized_Dict` wrapper with its process-wide
bounded FIFO decode cache (`_cache_ref`, capacity `cache_len = 100`).

Python values that the codec can carry are modelled by `Value`; machine
bytes are `Nat`s (the codec lemmas never need the `< 256` bound); files
are association lists from path to content.  The file first lays out all
definitions, then the theorems about them.
-/

namespace FileMethods

/-- Modelled from the spec: the structured values the Codec (the external
msgpack library, called by `save_object`/`load_object`) carries: null,
booleans, integers, floats (kept as their IEEE-754 bit pattern, which is
what the codec copies verbatim), strings, sequences and mappings. -/
inductive Value where
  | nil
  | bool (b : Bool)
  | int (i : Int)
  | float (bits : Nat)
  | str (s : String)
  | arr (elems : List Value)
  | map (entries : List (Value × Value))

mutual

/-- Boolean structural equality on `Value` (python `==` on decoded values,
except that float comparison is on the bit pattern). -/
def Value.beq : Value → Value → Bool
  | .nil, .nil => true
  | .bool a, .bool b => a == b
  | .int a, .int b => a == b
  | .float a, .float b => a == b
  | .str a, .str b => a == b
  | .arr as, .arr bs => Value.beqList as bs
  | .map as, .map bs => Value.beqPairs as bs
  | _, _ => false

def Value.beqList : List Value → List Value → Bool
  | [], [] => true
  | a :: as, b :: bs => Value.beq a b && Value.beqList as bs
  | _, _ => false

def Value.beqPairs : List (Value × Value) → List (Value × Value) → Bool
  | [], [] => true
  | (k, v) :: as, (k', v') :: bs =>
    Value.beq k k' && Value.beq v v' && Value.beqPairs as bs
  | _, _ => false

end

/-- Variable-length base-128 encoding of a natural number, with explicit
descent fuel so the definition is structurally recursive (`fuel ≥ n`
always suffices; the value is emitted least-significant group first with
the high bit of a byte as continuation marker). -/
def encNatAux : Nat → Nat → List Nat
  | 0, n => [n]
  | fuel + 1, n => if n < 128 then [n] else (n % 128 + 128) :: encNatAux fuel (n / 128)

/-- Variable-length base-128 encoding of a natural number. -/
def encNat (n : Nat) : List Nat := encNatAux n n

/-- Decoder matching `encNat`; returns the number and the unconsumed rest. -/
def decNat : List Nat → Option (Nat × List Nat)
  | [] => none
  | b :: bs =>
    if b < 128 then some (b, bs)
    else (decNat bs).map (fun p => (b - 128 + 128 * p.1, p.2))

/-- One string character, encoded as the varint of its code point. -/
def encChar (c : Char) : List Nat := encNat c.toNat

mutual

/-- Modelled from the spec: the Codec's encoder (`msgpack.dumps` /
`msgpack.pack(..., use_bin_type=True)`, an external library): a
deterministic, self-describing tag-plus-payload binary encoding of a
`Value`.  Collections are length-prefixed; integers carry a sign tag. -/
def encode : Value → List Nat
  | .nil => [0]
  | .bool false => [1]
  | .bool true => [2]
  | .int i => if 0 ≤ i then 3 :: encNat i.toNat else 4 :: encNat (-(i + 1)).toNat
  | .float bits => 5 :: encNat bits
  | .str s => 6 :: encNat s.length ++ (s.toList.map encChar).flatten
  | .arr vs => 7 :: encNat vs.length ++ encodeList vs
  | .map ps => 8 :: encNat ps.length ++ encodePairs ps

/-- Concatenated encodings of a list of values (an array's elements). -/
def encodeList : List Value → List Nat
  | [] => []
  | v :: vs => encode v ++ encodeList vs

/-- Concatenated encodings of a mapping's key/value pairs. -/
def encodePairs : List (Value × Value) → List Nat
  | [] => []
  | (k, v) :: ps => encode k ++ encode v ++ encodePairs ps

end

mutual

/-- Fuel needed by the decoder to come back out of a value: one unit per
decoder call along the deepest call chain. -/
def sizeW : Value → Nat
  | .arr vs => sizeWList vs + 1
  | .map ps => sizeWPairs ps + 1
  | _ => 1

def sizeWList : List Value → Nat
  | [] => 1
  | v :: vs => max (sizeW v) (sizeWList vs) + 1

def sizeWPairs : List (Value × Value) → Nat
  | [] => 1
  | (k, v) :: ps => max (max (sizeW k) (sizeW v)) (sizeWPairs ps) + 1

end

/-- Decoder for `count` characters, each a varint code point. -/
def decChars : Nat → List Nat → Option (List Char × List Nat)
  | 0, bs => some ([], bs)
  | n + 1, bs =>
    (decNat bs).bind fun p =>
      (decChars n p.2).map fun q => (Char.ofNat p.1 :: q.1, q.2)

mutual

/-- Modelled from the spec: the Codec's decoder (`msgpack.loads` with
`raw=False`, `use_list=False`): reads one value off the front of the byte
list, returning it with the unconsumed rest; `none` is the library
raising a decode error (truncated, malformed, or unknown tag).  Every
recursive call burns one unit of `fuel`, making the definition
structurally recursive; any fuel above `sizeW` of the encoded value gives
the same answer. -/
def decodeV : Nat → List Nat → Option (Value × List Nat)
  | 0, _ => none
  | _ + 1, [] => none
  | fuel + 1, t :: bs =>
    if t = 0 then some (.nil, bs)
    else if t = 1 then some (.bool false, bs)
    else if t = 2 then some (.bool true, bs)
    else if t = 3 then (decNat bs).map fun p => (.int p.1, p.2)
    else if t = 4 then (decNat bs).map fun p => (.int (-(p.1 + 1)), p.2)
    else if t = 5 then (decNat bs).map fun p => (.float p.1, p.2)
    else if t = 6 then
      (decNat bs).bind fun p =>
        (decChars p.1 p.2).map fun q => (.str (String.mk q.1), q.2)
    else if t = 7 then
      (decNat bs).bind fun p =>
        (decodeVs fuel p.1 p.2).map fun q => (.arr q.1, q.2)
    else if t = 8 then
      (decNat bs).bind fun p =>
        (decodePs fuel p.1 p.2).map fun q => (.map q.1, q.2)
    else none

/-- Decodes `count` consecutive values (an array's elements). -/
def decodeVs : Nat → Nat → List Nat → Option (List Value × List Nat)
  | 0, _, _ => none
  | _ + 1, 0, bs => some ([], bs)
  | fuel + 1, n + 1, bs =>
    (decodeV fuel bs).bind fun p =>
      (decodeVs fuel n p.2).map fun q => (p.1 :: q.1, q.2)

/-- Decodes `count` consecutive key/value pairs (a mapping's entries). -/
def decodePs : Nat → Nat → List Nat → Option (List (Value × Value) × List Nat)
  | 0, _, _ => none
  | _ + 1, 0, bs => some ([], bs)
  | fuel + 1, n + 1, bs =>
    (decodeV fuel bs).bind fun p =>
      (decodeV fuel p.2).bind fun p' =>
        (decodePs fuel n p'.2).map fun q => ((p.1, p'.1) :: q.1, q.2)

end

/-- Modelled from the spec: decoding one whole buffer (`msgpack.loads` /
`msgpack.unpack` on a whole file): the single decoded value, with trailing
bytes rejected (the library's `ExtraData` error). -/
def decodeTop (bs : List Nat) : Option Value :=
  match decodeV (2 * bs.length + 1) bs with
  | some (v, []) => some v
  | _ => none

/-- Python `d[key]` on a decoded mapping, modelled as association-list
lookup (the keys of a decoded msgpack map are unique). -/
def dictLookup : List (Value × Value) → Value → Option Value
  | [], _ => none
  | (k', v') :: kvs, k => if Value.beq k' k then some v' else dictLookup kvs k

/-- Python truthiness of a decoded value (`bool(v)`): `None`, `False`,
zero numbers (`+0.0` and `-0.0` for floats, by bit pattern), and empty
strings/collections are falsy. -/
def pyTruthy : Value → Bool
  | .nil => false
  | .bool b => b
  | .int i => i != 0
  | .float bits => bits != 0 && bits != 2 ^ 63
  | .str s => s != ""
  | .arr vs => !vs.isEmpty
  | .map ps => !ps.isEmpty

/-! ## `Serialized_Dict` and its global decode cache

The process-wide state touched by `Serialized_Dict._deser` is a pool of
instances (numbered by `Nat`) and the shared class attribute
`_cache_ref`.  Each instance's `_ser_data` is given by an environment
`payloads : Nat → List Nat` fixed at construction; its mutable `_data`
attribute lives in `SDSys.insts`.  A cache slot is `none` for one of the
initial `Empty()` sentinels and `some j` for a reference to instance `j`. -/

/-- `Serialized_Dict.cache_len` (source line 125). -/
def cache_len : Nat := 100

/-- The mutable state shared by all `Serialized_Dict` instances:
per-instance decoded values (`_data`, `none` when undecoded) and the
class-level `_cache_ref` list. -/
structure SDSys where
  insts : Nat → Option Value
  cache : List (Option Nat)

/-- The state at class initialisation: nothing decoded,
`_cache_ref = [Empty()] * cache_len` (line 131). -/
def initSDSys : SDSys :=
  { insts := fun _ => none, cache := List.replicate cache_len none }

/-- The guard `if not self._data` of `_deser` (line 160): python
truthiness of the attribute, which is `None` or the decoded value —
notably `true` also for a decoded empty mapping. -/
def needsDeser : Option Value → Bool
  | none => true
  | some v => !pyTruthy v

/-- `Serialized_Dict.purge_cache` (lines 165-166): drop the decoded value
of instance `i`. -/
def SDSys.purgeInst (s : SDSys) (i : Nat) : SDSys :=
  { s with insts := fun j => if j = i then none else s.insts j }

/-- `purge_cache` on a popped cache slot: the `Empty` sentinel's
`purge_cache` (lines 127-129) does nothing; a tracked instance drops its
decoded value. -/
def SDSys.purgeSlot (s : SDSys) : Option Nat → SDSys
  | none => s
  | some i => s.purgeInst i

/-- `Serialized_Dict._deser` (lines 159-163) on instance `j`: if
`not self._data`, then `self._data = msgpack.loads(self._ser_data, ...)`,
then `self._cache_ref.pop(0).purge_cache()`, then
`self._cache_ref.append(self)`.  Returns `none` when the decode raises
(the exception propagates) or the cache list is empty (`pop` would raise
`IndexError`; never reached, the list keeps length `cache_len`). -/
def SDSys.deser (payloads : Nat → List Nat) (s : SDSys) (j : Nat) : Option SDSys :=
  if needsDeser (s.insts j) then
    match decodeTop (payloads j), s.cache with
    | some v, h :: t =>
      let s1 : SDSys := { s with insts := fun i => if i = j then some v else s.insts i }
      let s2 := s1.purgeSlot h
      some { s2 with cache := t ++ [some j] }
    | _, _ => none
  else some s

/-- A sequence of field accesses: `_deser` on each listed instance in
order (any failure, i.e. exception, aborts the run). -/
def runSeq (payloads : Nat → List Nat) (s0 : SDSys) (js : List Nat) : Option SDSys :=
  js.foldlM (fun s j => SDSys.deser payloads s j) s0

/-- How many of the instances `0..n-1` currently hold a live decoded
value. -/
def liveCount (s : SDSys) (n : Nat) : Nat :=
  ((List.range n).filter (fun j => (s.insts j).isSome)).length

/-- `Serialized_Dict.__init__(mapping, payload)` (lines 145-152):
`if type(mapping) is dict:` store `msgpack.dumps(mapping)`;
`elif type(payload) is bytes:` store the payload; else raise.  The result
is the stored `_ser_data` (`_data` starts as `None`).  `mapping` is
`some (Value.map _)` when a dict was passed, `some _` for a non-dict
argument, `none` for the python default `None`; `payload` likewise holds
bytes when bytes were passed. -/
def sdInit (mapping : Option Value) (payload : Option (List Nat)) :
    Except String (List Nat) :=
  match mapping with
  | some (Value.map kvs) => .ok (encode (Value.map kvs))
  | _ =>
    match payload with
    | some bs => .ok bs
    | none => .error "neither mapping nor payload is supplied or wrong format."

/-- The python exceptions the modelled operations can raise. -/
inductive PyErr where
  | notImplementedError
  | keyError
  deriving DecidableEq

/-- `Serialized_Dict.FrozenDict.__setitem__` (lines 136-137): raises
`NotImplementedError`, for adding a key and for replacing a value alike. -/
def frozenSetItem (_kvs : List (Value × Value)) (_k _v : Value) :
    Except PyErr (List (Value × Value)) :=
  .error .notImplementedError

/-- `Serialized_Dict.FrozenDict.clear` (lines 139-140): raises. -/
def frozenClear (_kvs : List (Value × Value)) :
    Except PyErr (List (Value × Value)) :=
  .error .notImplementedError

/-- `Serialized_Dict.FrozenDict.update` (lines 142-143): raises. -/
def frozenUpdate (_kvs other_kvs : List (Value × Value)) :
    Except PyErr (List (Value × Value)) :=
  .error .notImplementedError

/-- `del m[k]` on a `FrozenDict`: the class (lines 134-143) does not
override `__delitem__`, so `dict.__delitem__` runs — removing the key, or
raising `KeyError` when absent. -/
def frozenDelItem (kvs : List (Value × Value)) (k : Value) :
    Except PyErr (List (Value × Value)) :=
  if (dictLookup kvs k).isSome then
    .ok (kvs.filter (fun p => !(Value.beq p.1 k)))
  else .error .keyError

/-- `m.pop(k)` on a `FrozenDict`: `pop` is not overridden either
(`Serialized_Dict.pop`, line 224, raises — but only on the outer wrapper),
so `dict.pop` removes and returns the value. -/
def frozenPop (kvs : List (Value × Value)) (k : Value) :
    Except PyErr (Value × List (Value × Value)) :=
  match dictLookup kvs k with
  | some v => .ok (v, kvs.filter (fun p => !(Value.beq p.1 k)))
  | none => .error .keyError

/-- `Serialized_Dict.get(key, default)` (lines 189-193): `try: return
self['key'] except KeyError: return default`.  The source subscripts with
the string literal `'key'` — the `key` argument is never used.
`__getitem__` (lines 172-174) first runs `_deser`.  The result is the
updated shared state paired with the returned value; `none` models an
exception other than `KeyError` propagating. -/
def sdGet (payloads : Nat → List Nat) (s : SDSys) (j : Nat) (key default : Value) :
    Option (SDSys × Value) :=
  (SDSys.deser payloads s j).bind fun s' =>
    match s'.insts j with
    | some (Value.map kvs) =>
      match dictLookup kvs (Value.str "key") with
      | some v => some (s', v)
      | none => some (s', default)
    | _ => none

/-! ## Files: `load_object` / `save_object`, `Persistent_Dict`, and the
pupil data record log -/

/-- A directory: association list from path to file content. -/
def fsRead {α : Type} (fs : List (String × α)) (path : String) : Option α :=
  (fs.find? (fun e => e.1 == path)).map (fun e => e.2)

/-- Write (create or overwrite) one file. -/
def fsWrite {α : Type} (fs : List (String × α)) (path : String) (content : α) :
    List (String × α) :=
  if (fs.find? (fun e => e.1 == path)).isSome then
    fs.map (fun e => if e.1 == path then (path, content) else e)
  else fs ++ [(path, content)]

/-- The failures of `load_object`. -/
inductive LoadErr where
  | ioError
  | decodeError
  | legacyError
  deriving DecidableEq

/-- `load_object(file_path, allow_legacy)` (lines 52-67): open the file
(`IOError` if absent), `msgpack.unpack`; on a decode failure either
re-raise (when `allow_legacy=False`) or fall back to
`_load_object_legacy` — the external pickle-based decoder, passed in here
as `legacyDec` since its implementation is a library call. -/
def loadObject (legacyDec : List Nat → Option Value) (fs : List (String × List Nat))
    (path : String) (allowLegacy : Bool) : Except LoadErr Value :=
  match fsRead fs path with
  | none => .error .ioError
  | some bytes =>
    match decodeTop bytes with
    | some v => .ok v
    | none =>
      if allowLegacy then
        match legacyDec bytes with
        | some v => .ok v
        | none => .error .legacyError
      else .error .decodeError

/-- `save_object(object_, file_path)` (lines 70-82): encode the whole
value and overwrite the file (the numpy-array-to-list degradation has no
counterpart here because `Value` carries no opaque array type). -/
def saveObject (fs : List (String × List Nat)) (obj : Value) (path : String) :
    List (String × List Nat) :=
  fsWrite fs path (encode obj)

/-- `Persistent_Dict.__init__`'s `self.update(**mapping)` needs string
keys; a non-string key raises a `TypeError` that the bare `except` of
lines 32-34 swallows. -/
def allStrKeys (kvs : List (Value × Value)) : Bool :=
  kvs.all (fun p => match p.1 with | Value.str _ => true | _ => false)

/-- `Persistent_Dict.__init__` (lines 25-34): start empty, then
`self.update(**load_object(self.file_path, allow_legacy=False))`;
`IOError` → keep empty (debug log); any other failure → keep empty
(warning log).  The result is the store's mapping after construction. -/
def persistentDictInit (legacyDec : List Nat → Option Value)
    (fs : List (String × List Nat)) (path : String) : List (Value × Value) :=
  match loadObject legacyDec fs path false with
  | .ok (Value.map kvs) => if allStrKeys kvs then kvs else []
  | _ => []

/-- `Persistent_Dict.save` (lines 36-39): re-encode the whole current
mapping and overwrite the file. -/
def persistentDictSave (fs : List (String × List Nat)) (path : String)
    (kvs : List (Value × Value)) : List (String × List Nat) :=
  saveObject fs (Value.map kvs) path

/-- One frame of a pupil data file: the verbatim topic string and the
still-encoded payload bytes; `msgpack.Unpacker` yields exactly these
pairs, and `msgpack.Packer` writes them self-length-delimited. -/
abbrev Frame := String × List Nat

/-- `topic.split(".")[0]` (line 92): the first dot-delimited segment. -/
def topicKey (t : String) : String :=
  String.mk (t.toList.takeWhile (fun c => c != '.'))

/-- Lines 93-95: `if topic not in pupil_data: pupil_data[topic] = []`,
then `pupil_data[topic].append(...)`.  Python dicts keep key insertion
order: an association list extended at the back. -/
def groupAppend (d : List (String × List (List Nat))) (k : String) (x : List Nat) :
    List (String × List (List Nat)) :=
  if (d.find? (fun e => e.1 == k)).isSome then
    d.map (fun e => if e.1 == k then (e.1, e.2 ++ [x]) else e)
  else d ++ [(k, [x])]

/-- `load_pupil_data_file` (lines 84-96) on an already-unpacked frame
sequence: group the payloads under the first dot-segment of their topic,
in file order; each datum stays a `Serialized_Dict(payload=p)`, i.e. its
undecoded payload bytes. -/
def loadPupilData (frames : List Frame) : List (String × List (List Nat)) :=
  frames.foldl (fun acc f => groupAppend acc (topicKey f.1) f.2) []

/-- `load_pupil_data_file` including the `open(file_path, "rb")`:
`IOError` (`none`) on a missing path. -/
def loadPupilDataFile (fsp : List (String × List Frame)) (path : String) :
    Option (List (String × List (List Nat))) :=
  (fsRead fsp path).map loadPupilData

/-- The groups of a `loadPupilDataFile` result, looked up by key. -/
def lookupGroup (d : List (String × List (List Nat))) (k : String) :
    Option (List (List Nat)) :=
  (d.find? (fun e => e.1 == k)).map (fun e => e.2)

/-- `save_pupil_data_file(file_path, data)` (lines 98-108): for each datum
write the frame `(datum['topic'], msgpack.dumps(datum))`.  The source
opens `open("file_path", "wb")` — the string literal `"file_path"`, not
the `file_path` argument.  `none` models the `KeyError` for a datum
without a `'topic'` entry (non-string topics are not modelled; the reader
requires topic strings). -/
def savePupilDataFile (fsp : List (String × List Frame)) (file_path : String)
    (data : List (List (Value × Value))) : Option (List (String × List Frame)) :=
  (data.mapM (fun datum =>
    match dictLookup datum (Value.str "topic") with
    | some (Value.str t) => some ((t, encode (Value.map datum)) : Frame)
    | _ => none)).map
    (fun frames => fsWrite fsp "file_path" frames)

/-! ## Theorems: structural equality decides `=` -/

mutual

theorem Value.beq_iff : ∀ a b : Value, Value.beq a b = true ↔ a = b
  | .nil, b => by cases b <;> simp [Value.beq]
  | .bool a, b => by cases b <;> simp [Value.beq]
  | .int a, b => by cases b <;> simp [Value.beq]
  | .float a, b => by cases b <;> simp [Value.beq]
  | .str a, b => by cases b <;> simp [Value.beq]
  | .arr as, b => by
    cases b <;> simp [Value.beq]
    exact Value.beqList_iff as _
  | .map as, b => by
    cases b <;> simp [Value.beq]
    exact Value.beqPairs_iff as _

theorem Value.beqList_iff : ∀ as bs : List Value, Value.beqList as bs = true ↔ as = bs
  | [], bs => by cases bs <;> simp [Value.beqList]
  | a :: as, bs => by
    cases bs with
    | nil => simp [Value.beqList]
    | cons b bs =>
      simp [Value.beqList, Bool.and_eq_true, Value.beq_iff a b, Value.beqList_iff as bs]

theorem Value.beqPairs_iff :
    ∀ as bs : List (Value × Value), Value.beqPairs as bs = true ↔ as = bs
  | [], bs => by cases bs <;> simp [Value.beqPairs]
  | (k, v) :: as, bs => by
    cases bs with
    | nil => simp [Value.beqPairs]
    | cons b bs =>
      obtain ⟨k', v'⟩ := b
      simp [Value.beqPairs, Bool.and_eq_true, Value.beq_iff k k', Value.beq_iff v v',
        Value.beqPairs_iff as bs, Prod.ext_iff]

end

instance : DecidableEq Value := fun a b => decidable_of_iff _ (Value.beq_iff a b)

/-! ## Theorems: the codec round-trips -/

theorem decNat_encNatAux :
    ∀ fuel n, n ≤ fuel → ∀ rest, decNat (encNatAux fuel n ++ rest) = some (n, rest) := by
  intro fuel
  induction fuel with
  | zero =>
    intro n hn rest
    have hn0 : n = 0 := Nat.le_zero.mp hn
    subst hn0
    simp [encNatAux, decNat]
  | succ f ih =>
    intro n hn rest
    by_cases h : n < 128
    · rw [encNatAux, if_pos h]
      simp [decNat, h]
    · rw [encNatAux, if_neg h, List.cons_append]
      have hle : n / 128 ≤ f := by
        have := Nat.div_lt_self (show 0 < n by omega) (show 1 < 128 by omega)
        omega
      have hb : ¬ (n % 128 + 128 < 128) := by omega
      rw [decNat, if_neg hb, ih (n / 128) hle rest, Option.map_some']
      have hval : n % 128 + 128 - 128 + 128 * (n / 128) = n := by
        have := Nat.mod_add_div n 128
        omega
      rw [hval]

theorem decNat_encNat (n : Nat) (rest : List Nat) :
    decNat (encNat n ++ rest) = some (n, rest) :=
  decNat_encNatAux n n le_rfl rest

theorem decChars_encChar (cs : List Char) :
    ∀ rest, decChars cs.length ((cs.map encChar).flatten ++ rest) = some (cs, rest) := by
  induction cs with
  | nil => intro rest; simp [decChars]
  | cons c cs ih =>
    intro rest
    have h1 : ((c :: cs).map encChar).flatten ++ rest
        = encNat c.toNat ++ ((cs.map encChar).flatten ++ rest) := by
      simp [encChar]
    rw [List.length_cons, h1]
    simp [decChars, decNat_encNat, ih rest, Char.ofNat_toNat]

theorem sizeW_le_sizeWList (vs : List Value) : ∀ x ∈ vs, sizeW x ≤ sizeWList vs := by
  induction vs with
  | nil => intro x hx; cases hx
  | cons y ys ih =>
    intro x hx
    rcases List.mem_cons.mp hx with rfl | hx
    · simp only [sizeWList]; omega
    · have := ih x hx
      simp only [sizeWList]; omega

theorem sizeW_le_sizeWPairs (ps : List (Value × Value)) :
    ∀ k v, (k, v) ∈ ps → sizeW k ≤ sizeWPairs ps ∧ sizeW v ≤ sizeWPairs ps := by
  induction ps with
  | nil => intro k v hx; cases hx
  | cons y ys ih =>
    obtain ⟨k', v'⟩ := y
    intro k v hx
    rcases List.mem_cons.mp hx with heq | hx
    · injection heq with h1 h2
      subst h1; subst h2
      simp only [sizeWPairs]; constructor <;> omega
    · have := ih k v hx
      simp only [sizeWPairs]; constructor <;> omega

theorem decodeV_encode (d : Nat) : ∀ v : Value, sizeW v ≤ d →
    ∀ (fuel : Nat) (rest : List Nat), sizeW v ≤ fuel →
      decodeV fuel (encode v ++ rest) = some (v, rest) := by
  induction d using Nat.strong_induction_on with
  | _ d ih =>
    intro v hv fuel rest hf
    have hv1 : 1 ≤ sizeW v := by cases v <;> simp [sizeW]
    obtain ⟨f, rfl⟩ : ∃ f, fuel = f + 1 := ⟨fuel - 1, by omega⟩
    cases v with
    | nil => simp [encode, decodeV]
    | bool b => cases b <;> simp [encode, decodeV]
    | int i =>
      by_cases hi : 0 ≤ i
      · rw [encode, if_pos hi]
        simp [decodeV, decNat_encNat, Int.toNat_of_nonneg hi]
      · rw [encode, if_neg hi]
        have h1 : ((-(i + 1)).toNat : Int) = -(i + 1) := Int.toNat_of_nonneg (by omega)
        simp only [decodeV, List.cons_append, decNat_encNat]
        norm_num
        omega
    | float bits => simp [encode, decodeV, decNat_encNat]
    | str s =>
      obtain ⟨cs⟩ := s
      have htl : (String.mk cs).toList = cs := rfl
      have hln : (String.mk cs).length = cs.length := rfl
      simp [encode, htl, hln, decodeV, decNat_encNat, decChars_encChar]
    | arr vs =>
      simp only [sizeW] at hv hf
      have hd1 : sizeWList vs < d := by omega
      have hlist : ∀ (vs' : List Value) (fuel' : Nat),
          (∀ x ∈ vs', sizeW x ≤ sizeWList vs) → sizeWList vs' ≤ fuel' →
          ∀ rest', decodeVs fuel' vs'.length (encodeList vs' ++ rest') = some (vs', rest') := by
        intro vs' fuel' hvs' hfuel'
        induction vs' generalizing fuel' with
        | nil =>
          intro rest'
          obtain ⟨g, rfl⟩ : ∃ g, fuel' = g + 1 := ⟨fuel' - 1, by simp [sizeWList] at hfuel'; omega⟩
          simp [decodeVs, encodeList]
        | cons x xs ihx =>
          intro rest'
          simp only [sizeWList] at hfuel'
          obtain ⟨g, rfl⟩ : ∃ g, fuel' = g + 1 := ⟨fuel' - 1, by omega⟩
          have hx := hvs' x (List.mem_cons_self x xs)
          have hdecx : decodeV g (encode x ++ (encodeList xs ++ rest')) =
              some (x, encodeList xs ++ rest') :=
            ih (sizeWList vs) hd1 x hx g _ (by omega)
          have hrest := ihx g (fun y hy => hvs' y (List.mem_cons_of_mem _ hy)) (by omega) rest'
          simp [encodeList, decodeVs, hdecx, hrest]
      have hmain := hlist vs f (sizeW_le_sizeWList vs) (by omega) rest
      simp [encode, decodeV, decNat_encNat, hmain]
    | map ps =>
      simp only [sizeW] at hv hf
      have hd1 : sizeWPairs ps < d := by omega
      have hlist : ∀ (ps' : List (Value × Value)) (fuel' : Nat),
          (∀ k v, (k, v) ∈ ps' → sizeW k ≤ sizeWPairs ps ∧ sizeW v ≤ sizeWPairs ps) →
          sizeWPairs ps' ≤ fuel' →
          ∀ rest', decodePs fuel' ps'.length (encodePairs ps' ++ rest') = some (ps', rest') := by
        intro ps' fuel' hps' hfuel'
        induction ps' generalizing fuel' with
        | nil =>
          intro rest'
          obtain ⟨g, rfl⟩ : ∃ g, fuel' = g + 1 := ⟨fuel' - 1, by simp [sizeWPairs] at hfuel'; omega⟩
          simp [decodePs, encodePairs]
        | cons x xs ihx =>
          intro rest'
          obtain ⟨k, v⟩ := x
          simp only [sizeWPairs] at hfuel'
          obtain ⟨g, rfl⟩ : ∃ g, fuel' = g + 1 := ⟨fuel' - 1, by omega⟩
          have hx := hps' k v (List.mem_cons_self (k, v) xs)
          have hdeck : decodeV g (encode k ++ (encode v ++ (encodePairs xs ++ rest'))) =
              some (k, encode v ++ (encodePairs xs ++ rest')) :=
            ih (sizeWPairs ps) hd1 k hx.1 g _ (by omega)
          have hdecv : decodeV g (encode v ++ (encodePairs xs ++ rest')) =
              some (v, encodePairs xs ++ rest') :=
            ih (sizeWPairs ps) hd1 v hx.2 g _ (by omega)
          have hrest := ihx g (fun k' v' hy => hps' k' v' (List.mem_cons_of_mem _ hy))
            (by omega) rest'
          simp [encodePairs, decodePs, hdeck, hdecv, hrest]
      have hmain := hlist ps f (sizeW_le_sizeWPairs ps) (by omega) rest
      simp [encode, decodeV, decNat_encNat, hmain]

theorem encode_length_pos (v : Value) : 1 ≤ (encode v).length := by
  cases v with
  | int i => by_cases hi : 0 ≤ i <;> simp [encode, hi]
  | bool b => cases b <;> simp [encode]
  | _ => simp [encode]

theorem sizeW_le_encode_length (d : Nat) : ∀ v : Value, sizeW v ≤ d →
    sizeW v ≤ 2 * (encode v).length := by
  induction d using Nat.strong_induction_on with
  | _ d ih =>
    intro v hv
    cases v with
    | nil => simp [sizeW, encode]
    | bool b => cases b <;> simp [sizeW, encode]
    | int i => by_cases hi : 0 ≤ i <;> simp [sizeW, encode, hi] <;> omega
    | float bits => simp [sizeW, encode]; omega
    | str s => simp [sizeW, encode]; omega
    | arr vs =>
      simp only [sizeW] at hv ⊢
      have hd1 : sizeWList vs < d := by omega
      have hlist : ∀ vs' : List Value, (∀ x ∈ vs', sizeW x ≤ sizeWList vs) →
          sizeWList vs' ≤ 2 * (encodeList vs').length + 1 := by
        intro vs' hvs'
        induction vs' with
        | nil => simp [sizeWList, encodeList]
        | cons x xs ihx =>
          have hx : sizeW x ≤ 2 * (encode x).length :=
            ih (sizeWList vs) hd1 x (hvs' x (List.mem_cons_self x xs))
          have hx1 := encode_length_pos x
          have hxs := ihx (fun y hy => hvs' y (List.mem_cons_of_mem _ hy))
          simp only [sizeWList, encodeList, List.length_append]
          omega
      have := hlist vs (sizeW_le_sizeWList vs)
      simp only [encode, List.cons_append, List.length_cons, List.length_append]
      omega
    | map ps =>
      simp only [sizeW] at hv ⊢
      have hd1 : sizeWPairs ps < d := by omega
      have hlist : ∀ ps' : List (Value × Value),
          (∀ k v, (k, v) ∈ ps' → sizeW k ≤ sizeWPairs ps ∧ sizeW v ≤ sizeWPairs ps) →
          sizeWPairs ps' ≤ 2 * (encodePairs ps').length + 1 := by
        intro ps' hps'
        induction ps' with
        | nil => simp [sizeWPairs, encodePairs]
        | cons x xs ihx =>
          obtain ⟨k, v⟩ := x
          have hx := hps' k v (List.mem_cons_self (k, v) xs)
          have hk : sizeW k ≤ 2 * (encode k).length := ih (sizeWPairs ps) hd1 k hx.1
          have hvv : sizeW v ≤ 2 * (encode v).length := ih (sizeWPairs ps) hd1 v hx.2
          have hk1 := encode_length_pos k
          have hv1 := encode_length_pos v
          have hxs := ihx (fun k' v' hy => hps' k' v' (List.mem_cons_of_mem _ hy))
          simp only [sizeWPairs, encodePairs, List.length_append]
          omega
      have := hlist ps (sizeW_le_sizeWPairs ps)
      simp only [encode, List.cons_append, List.length_cons, List.length_append]
      omega

/-- Codec round-trip at the whole-buffer level: `msgpack.loads` inverts
`msgpack.dumps` on every supported value. -/
theorem decodeTop_encode (v : Value) : decodeTop (encode v) = some v := by
  have hsz : sizeW v ≤ 2 * (encode v).length := sizeW_le_encode_length (sizeW v) v le_rfl
  have hdec : decodeV (2 * (encode v).length + 1) (encode v ++ []) = some (v, []) :=
    decodeV_encode (sizeW v) v le_rfl _ [] (by omega)
  rw [List.append_nil] at hdec
  simp [decodeTop, hdec]

/-! ## Theorems: single `_deser` steps -/

theorem deser_noop (payloads : Nat → List Nat) (s : SDSys) (j : Nat)
    (hneed : needsDeser (s.insts j) = false) :
    SDSys.deser payloads s j = some s := by
  simp [SDSys.deser, hneed]

theorem deser_step (payloads : Nat → List Nat) (s : SDSys) (j : Nat) (v : Value)
    (h : Option Nat) (t : List (Option Nat))
    (hneed : needsDeser (s.insts j) = true)
    (hdec : decodeTop (payloads j) = some v)
    (hc : s.cache = h :: t) :
    SDSys.deser payloads s j =
      some { SDSys.purgeSlot { s with insts := fun i => if i = j then some v else s.insts i } h
             with cache := t ++ [some j] } := by
  simp [SDSys.deser, hneed, hdec, hc]

theorem purgeSlot_insts (s : SDSys) (h : Option Nat) (x : Nat) :
    (s.purgeSlot h).insts x = if h = some x then none else s.insts x := by
  cases h with
  | none => simp [SDSys.purgeSlot]
  | some i =>
    simp only [SDSys.purgeSlot, SDSys.purgeInst, Option.some.injEq]
    by_cases hx : x = i
    · subst hx; simp
    · simp only [if_neg hx, if_neg (fun hh : i = x => hx hh.symm)]

theorem purgeSlot_cache (s : SDSys) (h : Option Nat) :
    (s.purgeSlot h).cache = s.cache := by
  cases h <;> rfl

theorem runSeq_nil (payloads : Nat → List Nat) (s : SDSys) :
    runSeq payloads s [] = some s := rfl

theorem runSeq_cons (payloads : Nat → List Nat) (s : SDSys) (a : Nat) (as : List Nat) :
    runSeq payloads s (a :: as) =
      (SDSys.deser payloads s a).bind fun s' => runSeq payloads s' as := rfl

theorem runSeq_append (payloads : Nat → List Nat) (s : SDSys) (as bs : List Nat) :
    runSeq payloads s (as ++ bs) =
      (runSeq payloads s as).bind fun s' => runSeq payloads s' bs := by
  induction as generalizing s with
  | nil => simp [runSeq_nil, runSeq_cons]
  | cons a as ih =>
    rw [List.cons_append, runSeq_cons, runSeq_cons]
    cases SDSys.deser payloads s a with
    | none => rfl
    | some s' => simp only [Option.some_bind, ih s', Option.bind_assoc]

/-! ## Theorems: sequential decode runs of fresh instances -/

/-- Decoding a list of distinct, previously-undecoded, not-yet-cached
instances in order: the cache drops as many of its oldest slots as there
are new decodes and gains the new instances at the back (in order); each
decoded instance holds its freshly decoded value; instances that are
untouched and sit nowhere in the dropped cache prefix keep their state. -/
theorem runSeq_fresh (payloads : Nat → List Nat) :
    ∀ (as : List Nat) (s0 : SDSys), as.Nodup →
      (∀ a ∈ as, s0.insts a = none) →
      (∀ a ∈ as, some a ∉ s0.cache) →
      as.length ≤ s0.cache.length →
      (∀ a ∈ as, (decodeTop (payloads a)).isSome) →
      ∃ s1, runSeq payloads s0 as = some s1 ∧
        s1.cache = s0.cache.drop as.length ++ as.map some ∧
        (∀ a ∈ as, s1.insts a = decodeTop (payloads a)) ∧
        (∀ x, x ∉ as → some x ∉ s0.cache.take as.length → s1.insts x = s0.insts x) := by
  intro as
  induction as with
  | nil =>
    intro s0 _ _ _ _ _
    exact ⟨s0, runSeq_nil payloads s0, by simp, by simp, fun x _ _ => rfl⟩
  | cons a as ih =>
    intro s0 hnd hundec hnc hlen hdec
    obtain ⟨v, hv⟩ := Option.isSome_iff_exists.mp (hdec a (List.mem_cons_self a as))
    obtain ⟨h, t, hc⟩ : ∃ h t, s0.cache = h :: t := by
      cases hcc : s0.cache with
      | nil => rw [hcc] at hlen; simp at hlen
      | cons h t => exact ⟨h, t, rfl⟩
    have hneed : needsDeser (s0.insts a) = true := by
      rw [hundec a (List.mem_cons_self a as)]; rfl
    have hstep := deser_step payloads s0 a v h t hneed hv hc
    set s0' : SDSys :=
      { SDSys.purgeSlot { s0 with insts := fun i => if i = a then some v else s0.insts i } h
        with cache := t ++ [some a] } with hs0'
    have hins' : ∀ x, s0'.insts x =
        if h = some x then none else if x = a then some v else s0.insts x := by
      intro x
      have := purgeSlot_insts { s0 with insts := fun i => if i = a then some v else s0.insts i } h x
      simpa [hs0'] using this
    have hnodup_as : as.Nodup := (List.nodup_cons.mp hnd).2
    have hna : a ∉ as := (List.nodup_cons.mp hnd).1
    have hha : h ≠ some a := by
      intro hh
      exact hnc a (List.mem_cons_self a as) (by rw [hc, hh]; exact List.mem_cons_self _ _)
    have hundec' : ∀ b ∈ as, s0'.insts b = none := by
      intro b hb
      rw [hins' b]
      have hba : b ≠ a := fun hh => hna (hh ▸ hb)
      have hhb : h ≠ some b := by
        intro hh
        exact hnc b (List.mem_cons_of_mem _ hb) (by rw [hc, hh]; exact List.mem_cons_self _ _)
      simp [hhb, hba]
      exact hundec b (List.mem_cons_of_mem _ hb)
    have hnc' : ∀ b ∈ as, some b ∉ s0'.cache := by
      intro b hb hmem
      simp only [hs0'] at hmem
      rcases List.mem_append.mp hmem with hmem | hmem
      · exact hnc b (List.mem_cons_of_mem _ hb) (by rw [hc]; exact List.mem_cons_of_mem _ hmem)
      · have hba : b ≠ a := fun hh => hna (hh ▸ hb)
        simp at hmem
        exact hba hmem
    have hlen' : as.length ≤ s0'.cache.length := by
      have : s0'.cache.length = t.length + 1 := by simp [hs0']
      rw [hc] at hlen
      simp at hlen
      omega
    have hdec' : ∀ b ∈ as, (decodeTop (payloads b)).isSome :=
      fun b hb => hdec b (List.mem_cons_of_mem _ hb)
    obtain ⟨s1, hrun, hcache, hdecd, hkeep⟩ := ih s0' hnodup_as hundec' hnc' hlen' hdec'
    refine ⟨s1, ?_, ?_, ?_, ?_⟩
    · rw [runSeq_cons, hstep, Option.some_bind]
      exact hrun
    · rw [hcache]
      have hlt : as.length ≤ t.length := by
        rw [hc] at hlen; simp at hlen; omega
      have h1 : s0'.cache.drop as.length = t.drop as.length ++ [some a] := by
        simp only [hs0']
        rw [List.drop_append_of_le_length hlt]
      rw [h1, hc]
      simp [List.append_assoc]
    · intro b hb
      rcases List.mem_cons.mp hb with rfl | hb
      · have hkeepb := hkeep b hna ?_
        · rw [hkeepb, hins' b]
          simp [hha, hv]
        · intro hmem
          have hlt : as.length ≤ t.length := by
            rw [hc] at hlen; simp at hlen; omega
          have hmem2 : some b ∈ (t ++ [some b]).take as.length := hmem
          rw [List.take_append_of_le_length hlt] at hmem2
          exact hnc b (List.mem_cons_self b as)
            (by rw [hc]; exact List.mem_cons_of_mem _ (List.mem_of_mem_take hmem2))
      · exact hdecd b hb
    · intro x hx hxtake
      have hxa : x ≠ a := fun hh => hx (hh ▸ List.mem_cons_self a as)
      have hxas : x ∉ as := fun hh => hx (List.mem_cons_of_mem _ hh)
      have hhx : h ≠ some x := by
        intro hh
        apply hxtake
        rw [hc, hh]
        simp only [List.length_cons, List.take_succ_cons]
        exact List.mem_cons_self _ _
      have hxtake' : some x ∉ s0'.cache.take as.length := by
        intro hmem
        apply hxtake
        have hlt : as.length ≤ t.length := by
          rw [hc] at hlen; simp at hlen; omega
        have hmem2 : some x ∈ (t ++ [some a]).take as.length := hmem
        rw [List.take_append_of_le_length hlt] at hmem2
        rw [hc]
        simp only [List.length_cons, List.take_succ_cons]
        exact List.mem_cons_of_mem _ hmem2
      rw [hkeep x hxas hxtake', hins' x]
      simp [hhx, hxa]

/-- The number of live decoded values is bounded by the cache length, as
long as every live instance is referenced from the cache. -/
theorem liveCount_le (s : SDSys) (n : Nat)
    (h1 : ∀ j, (s.insts j).isSome → some j ∈ s.cache) :
    liveCount s n ≤ s.cache.length := by
  classical
  set l := (List.range n).filter (fun j => (s.insts j).isSome) with hl
  have hnd : l.Nodup := (List.nodup_range n).filter _
  have hndm : (l.map some).Nodup := (List.nodup_map_iff (Option.some_injective _)).mpr hnd
  have hsub : (l.map some) ⊆ s.cache := by
    intro x hx
    obtain ⟨j, hj, rfl⟩ := List.mem_map.mp hx
    rw [hl] at hj
    exact h1 j (by simpa using List.of_mem_filter hj)
  have hcount : (l.map some).length ≤ s.cache.length :=
    calc (l.map some).length = (l.map some).toFinset.card :=
          (List.toFinset_card_of_nodup hndm).symm
      _ ≤ s.cache.toFinset.card :=
          Finset.card_le_card (fun x hx => List.mem_toFinset.mpr (hsub (List.mem_toFinset.mp hx)))
      _ ≤ s.cache.length := List.toFinset_card_le s.cache
  simpa [liveCount, hl] using hcount

/-- Decoding any list of distinct, fresh (undecoded and uncached)
instances preserves the cache invariants: fixed length, no duplicate
instance references, and a reference exactly for each live decoded
value. -/
theorem runSeq_distinct (payloads : Nat → List Nat) :
    ∀ (as : List Nat) (s0 : SDSys), as.Nodup →
      (∀ a ∈ as, s0.insts a = none) →
      (∀ a ∈ as, some a ∉ s0.cache) →
      (∀ a ∈ as, (decodeTop (payloads a)).isSome) →
      0 < s0.cache.length →
      (s0.cache.filterMap id).Nodup →
      (∀ j, (s0.insts j).isSome → some j ∈ s0.cache) →
      (∀ j, some j ∈ s0.cache → (s0.insts j).isSome) →
      ∃ s1, runSeq payloads s0 as = some s1 ∧
        s1.cache.length = s0.cache.length ∧
        (s1.cache.filterMap id).Nodup ∧
        (∀ j, (s1.insts j).isSome → some j ∈ s1.cache) ∧
        (∀ j, some j ∈ s1.cache → (s1.insts j).isSome) := by
  intro as
  induction as with
  | nil =>
    intro s0 _ _ _ _ _ hN h1 h2
    exact ⟨s0, runSeq_nil payloads s0, rfl, hN, h1, h2⟩
  | cons a as ih =>
    intro s0 hnd hundec hnc hdec hpos hN h1 h2
    obtain ⟨v, hv⟩ := Option.isSome_iff_exists.mp (hdec a (List.mem_cons_self a as))
    obtain ⟨h, t, hc⟩ : ∃ h t, s0.cache = h :: t := by
      cases hcc : s0.cache with
      | nil => rw [hcc] at hpos; simp at hpos
      | cons h t => exact ⟨h, t, rfl⟩
    have hneed : needsDeser (s0.insts a) = true := by
      rw [hundec a (List.mem_cons_self a as)]; rfl
    have hstep := deser_step payloads s0 a v h t hneed hv hc
    set s0' : SDSys :=
      { SDSys.purgeSlot { s0 with insts := fun i => if i = a then some v else s0.insts i } h
        with cache := t ++ [some a] } with hs0'
    have hins' : ∀ x, s0'.insts x =
        if h = some x then none else if x = a then some v else s0.insts x := by
      intro x
      have := purgeSlot_insts
        { s0 with insts := fun i => if i = a then some v else s0.insts i } h x
      simpa [hs0'] using this
    have hcache' : s0'.cache = t ++ [some a] := rfl
    have hna : a ∉ as := (List.nodup_cons.mp hnd).1
    have hnca : some a ∉ h :: t := hc ▸ hnc a (List.mem_cons_self a as)
    have hha : h ≠ some a := fun hh => hnca (hh ▸ List.mem_cons_self _ _)
    have hnat : some a ∉ t := fun hm => hnca (List.mem_cons_of_mem _ hm)
    -- the old cache's instance references, with the popped head split off
    have hfm_old : (s0.cache.filterMap id) = (h.toList) ++ t.filterMap id := by
      rw [hc]
      cases h <;> simp [List.filterMap_cons]
    have hNt : (t.filterMap id).Nodup := by
      rw [hfm_old] at hN
      exact hN.of_append_right
    -- freshness of the tail instances in the new state
    have hundec' : ∀ b ∈ as, s0'.insts b = none := by
      intro b hb
      rw [hins' b]
      have hba : b ≠ a := fun hh => hna (hh ▸ hb)
      have hhb : h ≠ some b := by
        intro hh
        exact hnc b (List.mem_cons_of_mem _ hb) (by rw [hc, hh]; exact List.mem_cons_self _ _)
      simp [hhb, hba]
      exact hundec b (List.mem_cons_of_mem _ hb)
    have hnc' : ∀ b ∈ as, some b ∉ s0'.cache := by
      intro b hb hmem
      rw [hcache'] at hmem
      rcases List.mem_append.mp hmem with hm | hm
      · exact hnc b (List.mem_cons_of_mem _ hb) (by rw [hc]; exact List.mem_cons_of_mem _ hm)
      · have hba : b ≠ a := fun hh => hna (hh ▸ hb)
        simp at hm
        exact hba hm
    have hdec' : ∀ b ∈ as, (decodeTop (payloads b)).isSome :=
      fun b hb => hdec b (List.mem_cons_of_mem _ hb)
    have hpos' : 0 < s0'.cache.length := by rw [hcache']; simp
    have hN' : (s0'.cache.filterMap id).Nodup := by
      rw [hcache', List.filterMap_append]
      have hfm_a : ([some a] : List (Option Nat)).filterMap id = [a] := by simp
      rw [hfm_a]
      refine List.Nodup.append hNt (List.nodup_singleton a) ?_
      intro x hx hx2
      rw [List.mem_singleton] at hx2
      subst hx2
      obtain ⟨y, hy, hyx⟩ := List.mem_filterMap.mp hx
      simp only [id] at hyx
      exact hnat (hyx ▸ hy)
    have h1' : ∀ j, (s0'.insts j).isSome → some j ∈ s0'.cache := by
      intro j hj
      rw [hins' j] at hj
      rw [hcache']
      by_cases hhj : h = some j
      · rw [if_pos hhj] at hj; simp at hj
      · rw [if_neg hhj] at hj
        by_cases hja : j = a
        · subst hja
          exact List.mem_append_right _ (List.mem_singleton_self _)
        · rw [if_neg hja] at hj
          have hmem := h1 j hj
          rw [hc] at hmem
          rcases List.mem_cons.mp hmem with hh | hh
          · exact absurd hh.symm hhj
          · exact List.mem_append_left _ hh
    have h2' : ∀ j, some j ∈ s0'.cache → (s0'.insts j).isSome := by
      intro j hj
      rw [hcache'] at hj
      rw [hins' j]
      rcases List.mem_append.mp hj with hm | hm
      · have hjs : (s0.insts j).isSome :=
          h2 j (by rw [hc]; exact List.mem_cons_of_mem _ hm)
        have hja : j ≠ a := fun hh => hnat (hh ▸ hm)
        have hhj : h ≠ some j := by
          intro hh
          have hjt : j ∈ t.filterMap id := List.mem_filterMap.mpr ⟨some j, hm, rfl⟩
          rw [hfm_old, hh] at hN
          simp only [Option.toList_some, List.singleton_append] at hN
          exact (List.nodup_cons.mp hN).1 hjt
        rw [if_neg hhj, if_neg hja]
        exact hjs
      · rw [List.mem_singleton] at hm
        injection hm with hm
        subst hm
        simp [hha]
    have hnodup_as : as.Nodup := (List.nodup_cons.mp hnd).2
    obtain ⟨s1, hrun, hlen1, hN1, h11, h21⟩ :=
      ih s0' hnodup_as hundec' hnc' hdec' hpos' hN' h1' h2'
    refine ⟨s1, ?_, ?_, hN1, h11, h21⟩
    · rw [runSeq_cons, hstep, Option.some_bind]
      exact hrun
    · rw [hlen1, hcache', hc]
      simp

/-! ## Theorems: file-system helpers -/

/-- `find?` by key commutes with mapping a key-preserving function. -/
theorem find?_map_keyfix {α : Type} (p : String) (g : String × α → String × α)
    (hg : ∀ e, (g e).1 = e.1) :
    ∀ fs : List (String × α),
      (fs.map g).find? (fun e => e.1 == p) = (fs.find? (fun e => e.1 == p)).map g := by
  intro fs
  induction fs with
  | nil => rfl
  | cons e fs ih =>
    rw [List.map_cons, List.find?_cons, List.find?_cons, hg e]
    cases hpe : (e.1 == p) with
    | true => rfl
    | false => rw [ih]

theorem fsRead_overwrite {α : Type} (fs : List (String × α)) (path : String) (content : α)
    (hex : (fs.find? (fun e => e.1 == path)).isSome) :
    fsRead (fs.map (fun e => if e.1 == path then (path, content) else e)) path
      = some content := by
  obtain ⟨e0, he0⟩ := Option.isSome_iff_exists.mp hex
  have hpred : (e0.1 == path) = true := by
    have := List.find?_some he0
    simpa using this
  have hkey : ∀ e : String × α, (if e.1 == path then (path, content) else e).1 = e.1 := by
    intro e
    by_cases he : (e.1 == path) = true
    · rw [if_pos he]
      exact (by simpa using he : e.1 = path).symm
    · rw [if_neg (by simp_all)]
  unfold fsRead
  rw [find?_map_keyfix path _ hkey fs, he0]
  have hkeq : e0.1 = path := by simpa using hpred
  simp [hkeq]

theorem fsRead_fsWrite {α : Type} (fs : List (String × α)) (path : String) (content : α) :
    fsRead (fsWrite fs path content) path = some content := by
  rw [fsWrite]
  by_cases hex : (fs.find? (fun e => e.1 == path)).isSome
  · rw [if_pos hex]
    exact fsRead_overwrite fs path content hex
  · rw [if_neg hex]
    have hnone : fs.find? (fun e => e.1 == path) = none := by
      revert hex; cases fs.find? (fun e => e.1 == path) <;> simp
    unfold fsRead
    rw [List.find?_append, hnone]
    simp [List.find?]

/-! ## Theorems: record-log grouping -/

theorem lookupGroup_groupAppend_same (d : List (String × List (List Nat)))
    (k : String) (x : List Nat) :
    lookupGroup (groupAppend d k x) k = some ((lookupGroup d k).getD [] ++ [x]) := by
  rw [groupAppend]
  by_cases hex : (d.find? (fun e => e.1 == k)).isSome
  · rw [if_pos hex]
    obtain ⟨e0, he0⟩ := Option.isSome_iff_exists.mp hex
    have hpred : (e0.1 == k) = true := by
      have := List.find?_some he0
      simpa using this
    have hkey : ∀ e : String × List (List Nat),
        (if e.1 == k then (e.1, e.2 ++ [x]) else e).1 = e.1 := by
      intro e
      by_cases he : (e.1 == k) = true
      · rw [if_pos he]
      · rw [if_neg (by simp_all)]
    unfold lookupGroup
    rw [find?_map_keyfix k _ hkey d, he0]
    have hkeq : e0.1 = k := by simpa using hpred
    simp [hkeq]
  · rw [if_neg hex]
    have hnone : d.find? (fun e => e.1 == k) = none := by
      revert hex; cases d.find? (fun e => e.1 == k) <;> simp
    unfold lookupGroup
    rw [List.find?_append, hnone]
    simp [List.find?]

theorem lookupGroup_groupAppend_ne (d : List (String × List (List Nat)))
    (k k' : String) (x : List Nat) (hne : k' ≠ k) :
    lookupGroup (groupAppend d k x) k' = lookupGroup d k' := by
  rw [groupAppend]
  by_cases hex : (d.find? (fun e => e.1 == k)).isSome
  · rw [if_pos hex]
    have hkey : ∀ e : String × List (List Nat),
        (if e.1 == k then (e.1, e.2 ++ [x]) else e).1 = e.1 := by
      intro e
      by_cases he : (e.1 == k) = true
      · rw [if_pos he]
      · rw [if_neg (by simp_all)]
    unfold lookupGroup
    rw [find?_map_keyfix k' _ hkey d]
    cases hfind : d.find? (fun e => e.1 == k') with
    | none => rfl
    | some e0 =>
      have hpred : (e0.1 == k') = true := by
        have := List.find?_some hfind
        simpa using this
      have he0k : e0.1 ≠ k := by
        have : e0.1 = k' := by simpa using hpred
        subst this
        exact hne
      simp [he0k]
  · rw [if_neg hex]
    unfold lookupGroup
    rw [List.find?_append]
    have hlast : ([(k, [x])].find? (fun e => e.1 == k')) = none := by
      simp [List.find?, beq_eq_false_iff_ne.mpr (fun hh : k = k' => hne hh.symm)]
    rw [hlast]
    cases d.find? (fun e => e.1 == k') <;> rfl

/-- The reader's full grouping behaviour: a topic group holds exactly the
payloads of the frames whose topic's first dot-segment is the group key,
in file order; a key with no matching frame has no group. -/
theorem lookupGroup_loadPupilData (frames : List Frame) (k : String) :
    lookupGroup (loadPupilData frames) k =
      if frames.any (fun f => topicKey f.1 == k) then
        some ((frames.filter (fun f => topicKey f.1 == k)).map (fun f => f.2))
      else none := by
  induction frames using List.reverseRecOn with
  | nil => simp [loadPupilData, lookupGroup, List.find?]
  | append_singleton fs f ih =>
    have hload : loadPupilData (fs ++ [f])
        = groupAppend (loadPupilData fs) (topicKey f.1) f.2 := by
      simp [loadPupilData, List.foldl_append]
    rw [hload]
    by_cases hk : (topicKey f.1 == k) = true
    · have hkeq : topicKey f.1 = k := by simpa using hk
      rw [hkeq, lookupGroup_groupAppend_same, ih]
      by_cases hany : fs.any (fun f => topicKey f.1 == k) = true
      · rw [if_pos hany, if_pos (by simp [List.any_append, hany])]
        simp [List.filter_append, hk]
      · have hany' : fs.any (fun f => topicKey f.1 == k) = false := by
          revert hany; cases fs.any (fun f => topicKey f.1 == k) <;> simp
        rw [if_neg (by simp [hany']), if_pos (by simp [List.any_append, hk])]
        have hfil : fs.filter (fun f => topicKey f.1 == k) = [] := by
          rw [List.filter_eq_nil_iff]
          intro a ha
          have := List.any_eq_false.mp hany' a ha
          simpa using this
        simp [List.filter_append, hfil, hk]
    · have hk' : (topicKey f.1 == k) = false := by
        revert hk; cases topicKey f.1 == k <;> simp
      have hne : k ≠ topicKey f.1 := by
        intro hh
        rw [hh] at hk'
        simp at hk'
      rw [lookupGroup_groupAppend_ne _ _ _ _ hne, ih]
      by_cases hany : fs.any (fun f => topicKey f.1 == k) = true
      · rw [if_pos hany, if_pos (by simp [List.any_append, hany])]
        simp [List.filter_append, hk']
      · have hany' : fs.any (fun f => topicKey f.1 == k) = false := by
          revert hany; cases fs.any (fun f => topicKey f.1 == k) <;> simp
        rw [if_neg (by simp [hany']), if_neg (by simp [List.any_append, hany', hk'])]

/-! ## The claims -/

/-- Claim C3: the spec says every mutation of a nested mapping (adding a
key, removing a key via delete/pop, replacing a value) fails with an
UnsupportedOperation-style error.  The code keeps that promise only for
`__setitem__`, `clear` and `update`; `FrozenDict` never overrides
`__delitem__` or `pop`, so removing the key `"b"` from the nested mapping
`{"b": 1}` silently succeeds and mutates the record — the code contradicts
its own `FrozenDict` name and "Immutable dict" comment. -/
theorem claim_C3_nested_removal_not_blocked :
    frozenDelItem [(Value.str "b", Value.int 1)] (Value.str "b") = .ok [] ∧
    frozenPop [(Value.str "b", Value.int 1)] (Value.str "b") = .ok (Value.int 1, []) ∧
    frozenSetItem [(Value.str "b", Value.int 1)] (Value.str "b") (Value.int 2)
      = .error .notImplementedError ∧
    frozenSetItem [(Value.str "b", Value.int 1)] (Value.str "c") (Value.int 2)
      = .error .notImplementedError ∧
    frozenClear [(Value.str "b", Value.int 1)] = .error .notImplementedError ∧
    frozenUpdate [(Value.str "b", Value.int 1)] [(Value.str "c", Value.int 2)]
      = .error .notImplementedError :=
  ⟨rfl, rfl, rfl, rfl, rfl, rfl⟩

/-- Claim C5 (counterexample): constructing a `Serialized_Dict` with BOTH
a mapping and a payload does not raise — the `type(mapping) is dict`
branch wins and the payload is silently ignored. -/
theorem claim_C5_counterexample :
    sdInit (some (Value.map [(Value.str "a", Value.int 1)])) (some [0, 7])
      = .ok (encode (Value.map [(Value.str "a", Value.int 1)])) :=
  rfl

/-- Claim C5 (amended): a mapping alone succeeds (storing its encoding), a
bytes payload alone succeeds (stored verbatim), neither raises the
construction error; when both are supplied the mapping takes precedence
and construction succeeds. -/
theorem claim_C5_construction_sources :
    (∀ kvs p, sdInit (some (Value.map kvs)) p = .ok (encode (Value.map kvs))) ∧
    (∀ bs, sdInit none (some bs) = .ok bs) ∧
    sdInit none none
      = .error "neither mapping nor payload is supplied or wrong format." :=
  ⟨fun _ _ => rfl, fun _ => rfl, rfl⟩

/-- Claim C6: `get(key, default)` is supposed to return `m[key]` when
present.  The source (line 191) subscripts with the string literal
`'key'` instead of the argument: on a record decoding to `{"a": 1}`,
`get("a", 0)` returns the default `0` even though `m["a"] = 1`; on a
record decoding to `{"key": 7}`, `get` returns `7` for ANY argument. -/
theorem claim_C6_get_ignores_key :
    (sdGet (fun _ => encode (Value.map [(Value.str "a", Value.int 1)])) initSDSys 0
      (Value.str "a") (Value.int 0)).map (fun p => p.2) = some (Value.int 0) ∧
    dictLookup [(Value.str "a", Value.int 1)] (Value.str "a") = some (Value.int 1) ∧
    (sdGet (fun _ => encode (Value.map [(Value.str "key", Value.int 7)])) initSDSys 0
      (Value.str "zzz") (Value.int 0)).map (fun p => p.2) = some (Value.int 7) :=
  ⟨by decide, by decide, by decide⟩

/-- Claim C7: the reader groups records by the first dot-delimited segment
of the topic, preserving file order within each group (first conjunct,
for every frame list and key); in particular frames with topics
`"gaze.0"`, `"gaze.1"`, `"pupil.0"` yield exactly the two groups
`"gaze"` (both payloads, in file order) and `"pupil"`. -/
theorem claim_C7_reader_grouping :
    (∀ (frames : List Frame) (k : String),
      lookupGroup (loadPupilData frames) k =
        if frames.any (fun f => topicKey f.1 == k) then
          some ((frames.filter (fun f => topicKey f.1 == k)).map (fun f => f.2))
        else none) ∧
    (∀ p1 p2 p3 : List Nat,
      loadPupilData [("gaze.0", p1), ("gaze.1", p2), ("pupil.0", p3)]
        = [("gaze", [p1, p2]), ("pupil", [p3])]) :=
  ⟨lookupGroup_loadPupilData, fun _ _ _ => rfl⟩

/-- Claim C8: codec round-trip — decoding the encoding of any supported
value (nested mappings, sequences, integers, floats-by-bit-pattern,
strings, booleans, null) restores it exactly, and `load_object` after
`save_object` on the same path returns the saved object. -/
theorem claim_C8_codec_roundtrip :
    (∀ v : Value, decodeTop (encode v) = some v) ∧
    (∀ (legacyDec : List Nat → Option Value) (fs : List (String × List Nat))
      (path : String) (v : Value) (allowLegacy : Bool),
      loadObject legacyDec (saveObject fs v path) path allowLegacy = .ok v) := by
  constructor
  · exact decodeTop_encode
  · intro legacyDec fs path v allowLegacy
    simp [loadObject, saveObject, fsRead_fsWrite, decodeTop_encode]

/-- Claim C9: `save_pupil_data_file` is supposed to write to the given
path.  The source (line 105) opens the string literal `"file_path"`: the
frames land in a file literally named `file_path`, and loading from the
requested path fails with `IOError` (`none`). -/
theorem claim_C9_save_writes_literal_path :
    savePupilDataFile [] "out.pldata" [[(Value.str "topic", Value.str "gaze.0")]]
      = some [("file_path",
          [("gaze.0", encode (Value.map [(Value.str "topic", Value.str "gaze.0")]))])] ∧
    loadPupilDataFile
      [("file_path",
        [("gaze.0", encode (Value.map [(Value.str "topic", Value.str "gaze.0")]))])]
      "out.pldata" = none :=
  ⟨rfl, rfl⟩

/-- Claim C4 (counterexample): `Persistent_Dict.__init__` passes
`allow_legacy=False` to `load_object` (line 29), so on a legacy-encoded
config file (primary decode fails) the store does NOT load the stored
mapping — it silently starts empty, even though the legacy decoder
(modelled as returning `{"k": 1}` for this file) would have produced it. -/
theorem claim_C4_counterexample :
    persistentDictInit (fun _ => some (Value.map [(Value.str "k", Value.int 1)]))
      [("user_settings", [99])] "user_settings" = [] ∧
    decodeTop [99] = none ∧
    (fun (_ : List Nat) => some (Value.map [(Value.str "k", Value.int 1)])) [99]
      = some (Value.map [(Value.str "k", Value.int 1)]) :=
  ⟨rfl, rfl, rfl⟩

/-- Claim C4 (amended): opening a `Persistent_Dict` on a file the primary
decoder rejects never consults the legacy decoder (`allow_legacy=False`);
the failure is swallowed and the store starts empty.  A subsequent
`save()` of the store's then-current mapping writes the primary encoding,
which the primary decoder alone reads back. -/
theorem claim_C4_no_legacy_fallback (legacyDec : List Nat → Option Value)
    (fs : List (String × List Nat)) (path : String) (bytes : List Nat)
    (kvs : List (Value × Value))
    (hfile : fsRead fs path = some bytes) (hbad : decodeTop bytes = none) :
    persistentDictInit legacyDec fs path = [] ∧
    loadObject legacyDec (persistentDictSave fs path kvs) path false
      = .ok (Value.map kvs) := by
  constructor
  · simp [persistentDictInit, loadObject, hfile, hbad]
  · simp [persistentDictSave, saveObject, loadObject, fsRead_fsWrite, decodeTop_encode]

/-- Witness for the amended C4 at a concrete legacy file and store
content: the discharged hypotheses, then the instantiated conclusion. -/
theorem claim_C4_witness :
    fsRead [("user_settings", [99])] "user_settings" = some [99] ∧
    decodeTop [99] = none ∧
    persistentDictInit (fun _ => none) [("user_settings", [99])] "user_settings" = [] ∧
    loadObject (fun _ => none)
      (persistentDictSave [("user_settings", [99])] "user_settings"
        [(Value.str "a", Value.int 2)])
      "user_settings" false = .ok (Value.map [(Value.str "a", Value.int 2)]) := by
  refine ⟨rfl, rfl, ?_, ?_⟩ <;>
    exact (claim_C4_no_legacy_fallback (fun _ => none) [("user_settings", [99])]
      "user_settings" [99] [(Value.str "a", Value.int 2)] rfl rfl).elim
      (fun h1 h2 => by first | exact h1 | exact h2)

/-- Claim C10: `_deser`'s decoded-present check is `if not self._data` —
python truthiness, not an `is None` test.  Consequently (second conjunct)
an instance holding a decoded NON-empty mapping is left completely
untouched by another access (no decode, no cache insertion), while (third
conjunct) an instance holding a decoded EMPTY mapping re-decodes on every
single access, pops (and purges) the oldest cache slot and appends itself
to the cache again. -/
theorem claim_C10_truthiness_check (payloads : Nat → List Nat) (s : SDSys) (j : Nat) :
    (∀ v, needsDeser (some v) = !pyTruthy v) ∧
    (∀ kvs, kvs ≠ [] → s.insts j = some (Value.map kvs) →
      SDSys.deser payloads s j = some s) ∧
    (∀ h t, s.insts j = some (Value.map []) →
      decodeTop (payloads j) = some (Value.map []) →
      s.cache = h :: t →
      ∃ s', SDSys.deser payloads s j = some s' ∧
        s'.cache = t ++ [some j] ∧
        s'.insts j = (if h = some j then none else some (Value.map [])) ∧
        (∀ i, h = some i → i ≠ j → s'.insts i = none)) := by
  refine ⟨fun v => rfl, ?_, ?_⟩
  · intro kvs hkvs hins
    apply deser_noop
    rw [hins]
    simp [needsDeser, pyTruthy, hkvs]
  · intro h t hins hdec hc
    have hneed : needsDeser (s.insts j) = true := by rw [hins]; rfl
    have hstep := deser_step payloads s j (Value.map []) h t hneed hdec hc
    refine ⟨_, hstep, rfl, ?_, ?_⟩
    · have hpi := purgeSlot_insts
        { s with insts := fun i => if i = j then some (Value.map []) else s.insts i } h j
      simpa using hpi
    · intro i hhi hij
      subst hhi
      have hpi := purgeSlot_insts
        { s with insts := fun i' => if i' = j then some (Value.map []) else s.insts i' } (some i) i
      simpa using hpi

/-- Witness for C10 at a concrete two-slot state holding a decoded empty
mapping: the discharged hypotheses, then the instantiated conclusion. -/
theorem claim_C10_witness :
    SDSys.insts { insts := fun _ => some (Value.map []), cache := [some 5, none] } 0
      = some (Value.map []) ∧
    decodeTop ((fun (_ : Nat) => encode (Value.map [])) 0) = some (Value.map []) ∧
    SDSys.cache { insts := fun _ => some (Value.map []), cache := [some 5, none] }
      = some 5 :: [none] ∧
    (needsDeser (some (Value.map [])) = !pyTruthy (Value.map [])) ∧
    ∃ s', SDSys.deser (fun _ => encode (Value.map []))
        { insts := fun _ => some (Value.map []), cache := [some 5, none] } 0 = some s' ∧
      s'.cache = [none, some 0] ∧
      s'.insts 0 = (if (some 5 : Option Nat) = some 0 then none else some (Value.map [])) ∧
      (∀ i, (some 5 : Option Nat) = some i → i ≠ 0 → s'.insts i = none) := by
  have h := claim_C10_truthiness_check (fun _ => encode (Value.map []))
    { insts := fun _ => some (Value.map []), cache := [some 5, none] } 0
  exact ⟨rfl, decodeTop_encode _, rfl, h.1 _,
    h.2.2 (some 5) [none] rfl (decodeTop_encode _) rfl⟩

/-- Claim C1: decoding `n > 100` distinct instances sequentially (each
accessed exactly once) from the pristine initial state keeps, at every
prefix of the run, at most 100 instances with a live decoded value; and
any instance found undecoded after the full run re-decodes on its next
access to exactly the fresh decode of its stored payload. -/
theorem claim_C1_cache_bound (payloads : Nat → List Nat) (n : Nat) (hn : 100 < n)
    (hdec : ∀ j, j < n → (decodeTop (payloads j)).isSome) :
    (∀ k, k ≤ n → ∃ s, runSeq payloads initSDSys (List.range k) = some s ∧
      liveCount s n ≤ 100) ∧
    (∀ s, runSeq payloads initSDSys (List.range n) = some s →
      ∀ j, j < n → s.insts j = none →
        ∃ s', SDSys.deser payloads s j = some s' ∧
          s'.insts j = decodeTop (payloads j)) := by
  have hcache0 : initSDSys.cache = List.replicate 100 none := rfl
  have hlen0 : initSDSys.cache.length = 100 := by rw [hcache0]; simp
  have hfresh : ∀ m, (∀ a ∈ List.range m, initSDSys.insts a = none) := fun m a _ => rfl
  have hnc0 : ∀ m, (∀ a ∈ List.range m, some a ∉ initSDSys.cache) := by
    intro m a _ hmem
    rw [hcache0] at hmem
    have := List.eq_of_mem_replicate hmem
    exact Option.noConfusion this
  have hN0 : (initSDSys.cache.filterMap id).Nodup := by
    rw [hcache0]
    have : (List.replicate 100 (none : Option Nat)).filterMap id = [] := by
      simp [List.filterMap_replicate]
    rw [this]
    exact List.nodup_nil
  have h10 : ∀ j, (initSDSys.insts j).isSome → some j ∈ initSDSys.cache := by
    intro j hj
    simp [initSDSys] at hj
  have h20 : ∀ j, some j ∈ initSDSys.cache → (initSDSys.insts j).isSome := by
    intro j hj
    rw [hcache0] at hj
    exact Option.noConfusion (List.eq_of_mem_replicate hj)
  constructor
  · intro k hk
    obtain ⟨s1, hrun, hlen1, _, h11, _⟩ :=
      runSeq_distinct payloads (List.range k) initSDSys (List.nodup_range k)
        (hfresh k) (hnc0 k)
        (fun a ha => hdec a (lt_of_lt_of_le (List.mem_range.mp ha) hk))
        (by rw [hlen0]; omega) hN0 h10 h20
    refine ⟨s1, hrun, ?_⟩
    have := liveCount_le s1 n h11
    rw [hlen1, hlen0] at this
    exact this
  · intro s hs j hj hnone
    obtain ⟨s1, hrun, hlen1, _, _, h21⟩ :=
      runSeq_distinct payloads (List.range n) initSDSys (List.nodup_range n)
        (hfresh n) (hnc0 n)
        (fun a ha => hdec a (List.mem_range.mp ha))
        (by rw [hlen0]; omega) hN0 h10 h20
    have hseq : s = s1 := by
      rw [hs] at hrun
      exact Option.some.inj hrun
    subst hseq
    have hjnc : some j ∉ s.cache := by
      intro hmem
      have := h21 j hmem
      rw [hnone] at this
      simp at this
    obtain ⟨h, t, hc⟩ : ∃ h t, s.cache = h :: t := by
      cases hcc : s.cache with
      | nil => rw [hcc] at hlen1; rw [hlen0] at hlen1; simp at hlen1
      | cons h t => exact ⟨h, t, rfl⟩
    obtain ⟨v, hv⟩ := Option.isSome_iff_exists.mp (hdec j hj)
    have hneed : needsDeser (s.insts j) = true := by rw [hnone]; rfl
    have hstep := deser_step payloads s j v h t hneed hv hc
    refine ⟨_, hstep, ?_⟩
    have hhj : h ≠ some j := fun hh => hjnc (by rw [hc, hh]; exact List.mem_cons_self _ _)
    have hpi := purgeSlot_insts
      { s with insts := fun i => if i = j then some v else s.insts i } h j
    rw [hv]
    simpa [hhj] using hpi

/-- Witness for C1 with 101 instances whose payloads each encode a
one-entry mapping: the discharged hypotheses, then the instantiated
conclusion. -/
theorem claim_C1_witness :
    (100 < 101) ∧
    (∀ j, j < 101 →
      (decodeTop ((fun j => encode (Value.map [(Value.str "i", Value.int j)])) j)).isSome) ∧
    (∀ k, k ≤ 101 →
      ∃ s, runSeq (fun j => encode (Value.map [(Value.str "i", Value.int j)]))
          initSDSys (List.range k) = some s ∧ liveCount s 101 ≤ 100) ∧
    (∀ s, runSeq (fun j => encode (Value.map [(Value.str "i", Value.int j)]))
        initSDSys (List.range 101) = some s →
      ∀ j, j < 101 → s.insts j = none →
        ∃ s', SDSys.deser (fun j => encode (Value.map [(Value.str "i", Value.int j)])) s j
            = some s' ∧
          s'.insts j = decodeTop ((fun j => encode (Value.map [(Value.str "i", Value.int j)])) j)) :=
  ⟨by decide, fun j _ => by simp [decodeTop_encode],
    claim_C1_cache_bound (fun j => encode (Value.map [(Value.str "i", Value.int j)])) 101
      (by decide) (fun j _ => by simp [decodeTop_encode])⟩

/-- Claim C2: FIFO eviction over decode events.  If 101 distinct,
previously-undecoded, not-yet-cached instances `A1..A101` are decoded in
order (no other decodes interleaved) against a full-length cache, then
`A1`'s decoded value is still present right after `A100`'s decode, is
dropped exactly by `A101`'s decode, and `A101`'s decode evicts no
instance other than `A1` (all of `A2..A101` hold their decoded values
afterwards, and every other instance's state is untouched by the final
step). -/
theorem claim_C2_fifo_eviction (payloads : Nat → List Nat) (as : List Nat) (s0 : SDSys)
    (hlen : as.length = 101) (hnd : as.Nodup)
    (hundec : ∀ a ∈ as, s0.insts a = none)
    (hnc : ∀ a ∈ as, some a ∉ s0.cache)
    (hcache : s0.cache.length = 100)
    (hdec : ∀ a ∈ as, (decodeTop (payloads a)).isSome) :
    ∃ s100 s101,
      runSeq payloads s0 (as.take 100) = some s100 ∧
      runSeq payloads s0 as = some s101 ∧
      s100.insts (as.getD 0 0) = decodeTop (payloads (as.getD 0 0)) ∧
      s101.insts (as.getD 0 0) = none ∧
      (∀ i, 1 ≤ i → i < 101 →
        s101.insts (as.getD i 0) = decodeTop (payloads (as.getD i 0))) ∧
      (∀ x, x ≠ as.getD 0 0 → x ≠ as.getD 100 0 →
        s101.insts x = s100.insts x) := by
  have h1000 : (100 : Nat) < as.length := by omega
  have h00 : (0 : Nat) < as.length := by omega
  set bs := as.take 100 with hbs
  have hbslen : bs.length = 100 := by
    rw [hbs, List.length_take]
    omega
  set c := as.getD 100 0 with hcdef
  have hcg : c = as[100] := List.getD_eq_getElem as 0 h1000
  have hdrop : as.drop 100 = [c] := by
    rw [List.drop_eq_getElem_cons h1000, List.drop_eq_nil_of_le (by omega), hcg]
  have hsplit : bs ++ [c] = as := by
    rw [hbs, ← hdrop]
    exact List.take_append_drop 100 as
  have hbs_sub : ∀ a ∈ bs, a ∈ as := fun a ha => List.take_subset 100 as ha
  have hcas : c ∈ as := by rw [hcg]; exact List.getElem_mem h1000
  have hbsnd : bs.Nodup := hnd.sublist (List.take_sublist 100 as)
  have hcnotbs : c ∉ bs := by
    have := List.nodup_append.mp (hsplit ▸ hnd)
    intro hmem
    exact this.2.2 hmem (List.mem_singleton_self c)
  -- run the first 100 decodes
  obtain ⟨s100, hrun100, hcache100, hdecd100, hkeep100⟩ :=
    runSeq_fresh payloads bs s0 hbsnd
      (fun a ha => hundec a (hbs_sub a ha))
      (fun a ha => hnc a (hbs_sub a ha))
      (by omega)
      (fun a ha => hdec a (hbs_sub a ha))
  have hdrop0 : s0.cache.drop bs.length = [] := by
    apply List.drop_eq_nil_of_le
    omega
  have hc100 : s100.cache = bs.map some := by
    rw [hcache100, hdrop0, List.nil_append]
  -- A1 is the head of bs
  have ha0g : as.getD 0 0 = as[0] := List.getD_eq_getElem as 0 h00
  have ha0bs : as[0] ∈ bs := by
    have h0bs : (0 : Nat) < bs.length := by omega
    have h1 : bs[0] = as[0] := List.getElem_take as
    rw [← h1]
    exact List.getElem_mem h0bs
  -- A101 is still undecoded after the first 100 decodes
  have hc_undec : s100.insts c = none := by
    rw [hkeep100 c hcnotbs ?_]
    · exact hundec c hcas
    · intro hmem
      exact hnc c hcas (List.mem_of_mem_take hmem)
  -- the final decode pops A1
  obtain ⟨a0, bs', hbscons⟩ : ∃ a0 bs', bs = a0 :: bs' := by
    cases hh : bs with
    | nil => rw [hh] at hbslen; simp at hbslen
    | cons a0 bs' => exact ⟨a0, bs', rfl⟩
  have ha0eq : a0 = as[0] := by
    have h0bs : (0 : Nat) < bs.length := by omega
    have h1 : bs[0] = as[0] := List.getElem_take as
    have h2 : bs[0] = a0 := by simp only [hbscons, List.getElem_cons_zero]
    exact h2 ▸ h1
  obtain ⟨w, hw⟩ := Option.isSome_iff_exists.mp (hdec c hcas)
  have hneedc : needsDeser (s100.insts c) = true := by rw [hc_undec]; rfl
  have hc100' : s100.cache = some a0 :: bs'.map some := by
    rw [hc100, hbscons, List.map_cons]
  have hstep := deser_step payloads s100 c w (some a0) (bs'.map some) hneedc hw hc100'
  set s101 : SDSys :=
    { SDSys.purgeSlot
        { s100 with insts := fun i => if i = c then some w else s100.insts i } (some a0)
      with cache := bs'.map some ++ [some c] } with hs101
  have hins101 : ∀ x, s101.insts x =
      if a0 = x then none else if x = c then some w else s100.insts x := by
    intro x
    have hpi := purgeSlot_insts
      { s100 with insts := fun i => if i = c then some w else s100.insts i } (some a0) x
    simpa [hs101] using hpi
  have hrun101 : runSeq payloads s0 as = some s101 := by
    rw [← hsplit, runSeq_append, hrun100, Option.some_bind, runSeq_cons, hstep,
      Option.some_bind, runSeq_nil]
  have ha0c : a0 ≠ c := fun hh => hcnotbs (hh ▸ (hbscons ▸ List.mem_cons_self a0 bs'))
  refine ⟨s100, s101, hrun100, hrun101, ?_, ?_, ?_, ?_⟩
  · rw [ha0g]
    exact hdecd100 as[0] ha0bs
  · rw [hins101 (as.getD 0 0), ha0g, ← ha0eq]
    simp
  · intro i h1i hi101
    have hig : as.getD i 0 = as[i] := List.getD_eq_getElem as 0 (by omega)
    rw [hig, hins101]
    by_cases hi100 : i = 100
    · subst hi100
      rw [← hcg]
      have hac : ¬ (a0 = c) := ha0c
      simp [hac, hw]
    · have hilt : i < 100 := by omega
      have hibs : i < bs.length := by omega
      have hgl : bs[i] = as[i] := List.getElem_take as
      have hmem : as[i] ∈ bs := by rw [← hgl]; exact List.getElem_mem hibs
      have hne0 : as[i] ≠ a0 := by
        rw [ha0eq]
        intro hh
        have := (hnd.getElem_inj_iff).mp hh
        omega
      have hnec : as[i] ≠ c := by
        rw [hcg]
        intro hh
        have := (hnd.getElem_inj_iff).mp hh
        omega
      rw [if_neg (fun hh => hne0 hh.symm), if_neg hnec]
      exact hdecd100 as[i] hmem
  · intro x hx0 hx100
    rw [hins101]
    have hxa0 : a0 ≠ x := by
      rw [ha0eq]
      intro hh
      exact hx0 (by rw [ha0g, ← hh])
    have hxc : x ≠ c := by
      intro hh
      first
        | exact hx100 hh
        | exact hx100 (by rw [← hcdef, ← hh])
    rw [if_neg hxa0, if_neg hxc]

/-- Witness for C2: instances `0..100` decoded in order from the pristine
initial state, each payload an encoded singleton mapping; the discharged
hypotheses, then the instantiated conclusion. -/
theorem claim_C2_witness :
    (List.range 101).length = 101 ∧
    (List.range 101).Nodup ∧
    (∀ a ∈ List.range 101, initSDSys.insts a = none) ∧
    (∀ a ∈ List.range 101, some a ∉ initSDSys.cache) ∧
    initSDSys.cache.length = 100 ∧
    (∀ a ∈ List.range 101,
      (decodeTop ((fun j => encode (Value.map [(Value.str "i", Value.int j)])) a)).isSome) ∧
    ∃ s100 s101,
      runSeq (fun j => encode (Value.map [(Value.str "i", Value.int j)]))
        initSDSys ((List.range 101).take 100) = some s100 ∧
      runSeq (fun j => encode (Value.map [(Value.str "i", Value.int j)]))
        initSDSys (List.range 101) = some s101 ∧
      s100.insts ((List.range 101).getD 0 0)
        = decodeTop ((fun j => encode (Value.map [(Value.str "i", Value.int j)]))
            ((List.range 101).getD 0 0)) ∧
      s101.insts ((List.range 101).getD 0 0) = none ∧
      (∀ i, 1 ≤ i → i < 101 →
        s101.insts ((List.range 101).getD i 0)
          = decodeTop ((fun j => encode (Value.map [(Value.str "i", Value.int j)]))
              ((List.range 101).getD i 0))) ∧
      (∀ x, x ≠ (List.range 101).getD 0 0 → x ≠ (List.range 101).getD 100 0 →
        s101.insts x = s100.insts x) :=
  ⟨by simp, List.nodup_range 101, fun a _ => rfl,
    fun a _ hmem => Option.noConfusion (List.eq_of_mem_replicate hmem),
    by simp [initSDSys, cache_len],
    fun a _ => by simp [decodeTop_encode],
    claim_C2_fifo_eviction (fun j => encode (Value.map [(Value.str "i", Value.int j)]))
      (List.range 101) initSDSys (by simp) (List.nodup_range 101)
      (fun a _ => rfl)
      (fun a _ hmem => Option.noConfusion (List.eq_of_mem_replicate hmem))
      (by simp [initSDSys, cache_len])
      (fun a _ => by simp [decodeTop_encode])⟩
